import Mathlib

/-!
Shallow embedding of the `bpm` package manager (`src/main.rs`) and proofs
about its dependency-resolving installer.

Modelling conventions:
* Rust `BTreeMap<String, _>` becomes an association list `List (String × _)`
  with `alookup` / `aset` / `aremove` mirroring `get` / `insert` / `remove`.
  (`aset` appends fresh keys at the end instead of keeping the list sorted;
  lookup/update semantics — the only ones the program relies on — agree.)
* Rust `String` ordering (`Iterator::max` over `BTreeMap` keys, main.rs:78)
  is byte-lexicographic; UTF-8 preserves code-point order, so it is modelled
  by `charListLt` (lexicographic comparison of code points).
* The filesystem is a map `path ↦ content token` (`List (String × Nat)`).
  `fs::copy` succeeds iff the source path is present; `fs::read` succeeds iff
  the path is present; `fs::remove_file` of an absent path is a tolerated
  failure.  `create_dir_all`, writes of `installed.json` and the progress bar
  are modelled as always succeeding (they only `unwrap` on I/O conditions the
  claims do not touch).
* `installed.json` is modelled by the `db` component of the state: during a
  run every save writes a well-formed document, so a fresh load (main.rs:97,
  main.rs:133, main.rs:152) returns exactly the last saved mapping.  The
  initial load of a missing or corrupt file is modelled separately by
  `load_installed` over `StateFile`.
* Rust panics (`unwrap` / `expect` failures) are the `panicked` results; the
  state carried by `panicked` is the persistent state at the moment the
  process aborts.
* The unbounded Rust recursion of `install_recursive` (main.rs:66-148) is
  modelled with a fuel parameter; `install_package` runs it with fuel
  `totalFuel repo` (one more than the number of `package:version` keys of the
  manifest), and the termination theorem for C1 shows this fuel is never
  exhausted, which is exactly the claim that the recursion is well founded
  via the visited set.
-/

namespace Bpm

/-- Lexicographic comparison of character lists by code point; this is the
order Rust uses on `String` (byte order of UTF-8 agrees with code-point
order). -/
def charListLt : List Char → List Char → Bool
  | [], [] => false
  | [], _ :: _ => true
  | _ :: _, [] => false
  | a :: as, b :: bs =>
    if a.toNat < b.toNat then true
    else if b.toNat < a.toNat then false
    else charListLt as bs

/-- Rust `String` `<` (lexicographic). -/
def strLt (a b : String) : Bool := charListLt a.data b.data

/-- Binary maximum in Rust's string order (`Iterator::max` keeps the later
element on ties; keys are unique so ties cannot occur).  -/
def strMax (a b : String) : String := if strLt a b then b else a

/-- `str::split(c)` from Rust, on the character list of the string:
`"a:b" ↦ ["a","b"]`, `":" ↦ ["",""]`, `"" ↦ [""]`. -/
def splitOnChar (c : Char) : List Char → List (List Char)
  | [] => [[]]
  | x :: xs =>
    if x = c then [] :: splitOnChar c xs
    else
      match splitOnChar c xs with
      | [] => [[x]]
      | y :: ys => (x :: y) :: ys

/-- Association-list lookup, mirroring `BTreeMap::get`. -/
def alookup {α : Type} : List (String × α) → String → Option α
  | [], _ => none
  | (k', v) :: rest, k => if k = k' then some v else alookup rest k

/-- Association-list insert-or-replace, mirroring `BTreeMap::insert`. -/
def aset {α : Type} : List (String × α) → String → α → List (String × α)
  | [], k, v => [(k, v)]
  | (k', v') :: rest, k, v =>
    if k = k' then (k, v) :: rest else (k', v') :: aset rest k v

/-- Association-list removal, mirroring `BTreeMap::remove` (the mapping part;
the returned value is obtained by a preceding `alookup`). -/
def aremove {α : Type} : List (String × α) → String → List (String × α)
  | [], _ => []
  | (k', v') :: rest, k => if k = k' then rest else (k', v') :: aremove rest k

/-- Number of entries stored under a key. -/
def countKey {α : Type} (l : List (String × α)) (k : String) : Nat :=
  (l.filter (fun e => decide (e.1 = k))).length

/-- `Path::join` for the relative path fragments the program uses. -/
def pathJoin (a b : String) : String := a ++ "/" ++ b

/-- `Path::file_name` (main.rs:116) restricted to the path shapes the program
meets: the last nonempty `/`-separated component, `none` for an empty path or
a path ending in `..` (where Rust returns `None` and the following `unwrap`
panics). -/
def fileName (s : String) : Option String :=
  match ((splitOnChar '/' s.data).filter (fun l => !l.isEmpty)).getLast? with
  | none => none
  | some l => if l = ['.', '.'] then none else some (String.mk l)

/-- `PackageVersion` (main.rs:10-16). -/
structure PackageVersion where
  path : String
  binaries : List String
  dependencies : List String
deriving DecidableEq

/-- `Repo` (main.rs:18-22): package name ↦ version string ↦ `PackageVersion`. -/
structure Repo where
  packages : List (String × List (String × PackageVersion))

/-- `InstalledPackage` (main.rs:24-29). -/
structure InstalledPackage where
  repo : String
  version : String
  binaries : List String
deriving DecidableEq

/-- `InstalledDb` (main.rs:31). -/
abbrev InstalledDb := List (String × InstalledPackage)

/-- Condition of the `installed.json` file for the initial `load_installed`:
missing, unreadable, or readable with a given parse outcome. -/
inductive StateFile where
  | absent
  | unreadable
  | readable (parsed : Option InstalledDb)

/-- `load_installed` (main.rs:33-40): empty mapping if the file is absent;
a panic (`none`) if an existing file cannot be read; and — via
`unwrap_or_default` — a silent empty mapping if the contents do not parse. -/
def load_installed : StateFile → Option InstalledDb
  | .absent => some []
  | .unreadable => none
  | .readable parsed => some (parsed.getD [])

/-- `parse_pkg_arg` (main.rs:47-53): `repo:package[:version]`.  The result is
`none` when indexing `parts[1]` panics, i.e. when the argument has no `:`. -/
def parse_pkg_arg (arg : String) : Option (String × String × Option String) :=
  let parts := splitOnChar ':' arg.data
  match parts.get? 0, parts.get? 1 with
  | some r, some p =>
    some (String.mk r, String.mk p, (parts.get? 2).map String.mk)
  | _, _ => none

/-- Dependency-reference parsing inside the dependency loop (main.rs:90-95):
`name:version` when the reference contains a `:`, otherwise a bare name. -/
def parseDep (dep : String) : String × Option String :=
  if ':' ∈ dep.data then
    let parts := splitOnChar ':' dep.data
    (String.mk (parts.headD []), (parts.get? 1).map String.mk)
  else (dep, none)

/-- Observable actions of a run: the messages the program prints and the
filesystem/catalog actions it performs, in order. -/
inductive Ev where
  | circularDep (key : String)
  | installingDep (name : String)
  | depAlreadyInstalled (name : String)
  | copied (src dest : String)
  | simulatedCopy (src dest : String)
  | savedToDb (name : String)
  | installedOk (package : String)
  | versionNotFound (ver package : String)
  | packageNotFound (package repo : String)
  | removedPkg (package : String)
  | notInstalled (package : String)
  | removeAttempt (path : String)
deriving DecidableEq

/-- Persistent state threaded through a run: the filesystem, the parsed
contents of `installed.json`, and the trace of observable actions. -/
structure St where
  files : List (String × Nat)
  db : InstalledDb
  events : List Ev
deriving DecidableEq

/-- Result of a recursive install: normal return (with the visited set as the
Rust function leaves it), a process-aborting panic, or fuel exhaustion of the
model (shown unreachable for `totalFuel`). -/
inductive Res where
  | ok (visited : List String) (st : St)
  | panicked (st : St)
  | outOfFuel
deriving DecidableEq

/-- Result of the binary-copy loop. -/
inductive BinsRes where
  | ok (bins : List String) (st : St)
  | panicked (st : St)
deriving DecidableEq

/-- `versions.keys().max()` (main.rs:78). -/
def maxKey : List (String × PackageVersion) → Option String
  | [] => none
  | (k, _) :: rest =>
    match maxKey rest with
    | none => some k
    | some m => some (strMax k m)

/-- Version choice of main.rs:78: the requested version if given, else the
maximum key; `none` (a panic via `unwrap`) only when a package has an empty
version map and no version was requested. -/
def resolveVer (version : Option String) (versions : List (String × PackageVersion)) :
    Option String :=
  match version with
  | some v => some v
  | none => maxKey versions

/-- The binary-install loop (main.rs:114-130): for each binary, copy
`path/bin` to `bins/<file_name>` (a failed copy prints `Simulated copy` and
continues), then `fs::read` the destination (panicking when it is absent),
record it in the catalog, and accumulate the destination path. -/
def installBins (bpmStore pkgPath : String) : List String → List String → St → BinsRes
  | [], acc, st => .ok acc st
  | bin :: rest, acc, st =>
    let src := pathJoin pkgPath bin
    match fileName bin with
    | none => .panicked st
    | some fname =>
      let dest := pathJoin (pathJoin bpmStore "bins") fname
      let st1 :=
        match alookup st.files src with
        | some content =>
          { st with files := aset st.files dest content,
                    events := st.events ++ [Ev.copied src dest] }
        | none => { st with events := st.events ++ [Ev.simulatedCopy src dest] }
      match alookup st1.files dest with
      | none => .panicked st1
      | some _ =>
        installBins bpmStore pkgPath rest (acc ++ [dest])
          { st1 with events := st1.events ++ [Ev.savedToDb fname] }

/-- The dependency loop (main.rs:89-104), abstracted over the recursive
installer `instF`: parse each reference, freshly load the installed store and
check it **by package name only**, skip if present, otherwise recurse. -/
def installDepsF (instF : String → Option String → List String → St → Res) :
    List String → List String → St → Res
  | [], visited, st => .ok visited st
  | dep :: rest, visited, st =>
    let pd := parseDep dep
    match alookup st.db pd.1 with
    | some _ =>
      installDepsF instF rest visited
        { st with events := st.events ++ [Ev.depAlreadyInstalled pd.1] }
    | none =>
      match instF pd.1 pd.2 visited
          { st with events := st.events ++ [Ev.installingDep pd.1] } with
      | .outOfFuel => .outOfFuel
      | .panicked st' => .panicked st'
      | .ok visited' st' => installDepsF instF rest visited' st'

/-- `install_recursive` (main.rs:66-148) with fuel: resolve the package and
version, detect a cycle on the `package:version` key, install dependencies
first, then copy the binaries, write the `InstalledPackage` record and
release the key from the visited set. -/
def install_recursive (repo : Repo) (repoName bpmStore : String) :
    Nat → String → Option String → List String → St → Res
  | 0, _, _, _, _ => .outOfFuel
  | fuel + 1, package, version, visited, st =>
    match alookup repo.packages package with
    | none =>
      .ok visited { st with events := st.events ++ [Ev.packageNotFound package repoName] }
    | some versions =>
      match resolveVer version versions with
      | none => .panicked st
      | some ver =>
        match alookup versions ver with
        | none =>
          .ok visited { st with events := st.events ++ [Ev.versionNotFound ver package] }
        | some pkg =>
          let key := package ++ ":" ++ ver
          if key ∈ visited then
            .ok visited { st with events := st.events ++ [Ev.circularDep key] }
          else
            match installDepsF (install_recursive repo repoName bpmStore fuel)
                pkg.dependencies (key :: visited) st with
            | .outOfFuel => .outOfFuel
            | .panicked st' => .panicked st'
            | .ok visited' st' =>
              match installBins bpmStore pkg.path pkg.binaries [] st' with
              | .panicked st'' => .panicked st''
              | .ok installedBins st'' =>
                .ok (visited'.erase key)
                  { st'' with
                    events := st''.events ++ [Ev.installedOk package],
                    db := aset st''.db package ⟨repoName, ver, installedBins⟩ }

/-- All `package:version` keys contributed by one package entry. -/
def pkgKeys (name : String) : List (String × PackageVersion) → List String
  | [] => []
  | (v, _) :: rest => (name ++ ":" ++ v) :: pkgKeys name rest

/-- All `package:version` keys of a manifest. -/
def allKeys : List (String × List (String × PackageVersion)) → List String
  | [] => []
  | (p, versions) :: rest => pkgKeys p versions ++ allKeys rest

/-- Fuel that the termination theorem shows is never exhausted: one more
than the number of `package:version` keys of the manifest. -/
def totalFuel (repo : Repo) : Nat := (allKeys repo.packages).length + 1

/-- `install_package` (main.rs:56-64): a fresh empty visited set, then the
recursive install. -/
def install_package (repo : Repo) (repoName bpmStore package : String)
    (version : Option String) (st : St) : Res :=
  install_recursive repo repoName bpmStore (totalFuel repo) package version [] st

/-- Binary-deletion loop of `remove_package` (main.rs:154): each recorded
path gets a deletion attempt whose failure is discarded (`let _ =`). -/
def removeBins : List String → St → St
  | [], st => st
  | bin :: rest, st =>
    removeBins rest
      { st with files := aremove st.files bin,
                events := st.events ++ [Ev.removeAttempt bin] }

/-- `remove_package` (main.rs:151-158): drop the record, best-effort delete
every recorded binary, persist; a missing record is a reported no-op. -/
def remove_package (package : String) (st : St) : St :=
  match alookup st.db package with
  | none => { st with events := st.events ++ [Ev.notInstalled package] }
  | some pkg =>
    let st1 := removeBins pkg.binaries { st with db := aremove st.db package }
    { st1 with events := st1.events ++ [Ev.removedPkg package] }

/-- `update_package` (main.rs:161-164): remove, then install latest. -/
def update_package (repo : Repo) (repoName bpmStore package : String) (st : St) : Res :=
  install_package repo repoName bpmStore package none (remove_package package st)

/-- Number of manifest `package:version` keys not currently in the visited
set: the measure that shrinks at every recursive call. -/
def keysLeft (repo : Repo) (visited : List String) : Nat :=
  ((allKeys repo.packages).filter (fun k => decide (k ∉ visited))).length

/-- The resulting state of a binary-copy loop, whether it returned or
panicked. -/
def BinsRes.state : BinsRes → St
  | .ok _ st => st
  | .panicked st => st

/-- The keys of the installed-state document stay duplicate-free through a
result. -/
def resDbKeysNodup : Res → Prop
  | .ok _ st => (st.db.map Prod.fst).Nodup
  | .panicked st => (st.db.map Prod.fst).Nodup
  | .outOfFuel => True

/-- The concrete version map of the C5 witness. -/
def vlist5 : List (String × PackageVersion) :=
  [("1.0", ⟨"p", [], []⟩), ("2.0", ⟨"p", [], []⟩), ("1.5", ⟨"p", [], []⟩)]

/-- Destination path a binary is copied to (main.rs:116-117): the flat
`bins` directory under the store root, keyed by the binary's file name. -/
def destOf (bpmStore bin : String) : String :=
  pathJoin (pathJoin bpmStore "bins") ((fileName bin).getD "")

/-- The trace the binary-copy loop emits when every copy and read succeeds:
one `copied` and one `savedToDb` action per binary, in list order. -/
def binEvents (bpmStore pkgPath : String) : List String → List Ev
  | [] => []
  | bin :: rest =>
    Ev.copied (pathJoin pkgPath bin) (destOf bpmStore bin)
      :: Ev.savedToDb ((fileName bin).getD "")
      :: binEvents bpmStore pkgPath rest

/-- The second filesystem keeps every path the first one has (contents may
differ): copies only ever add or overwrite files. -/
def FilesExtend (f f' : List (String × Nat)) : Prop :=
  ∀ k : String, (alookup f k).isSome → (alookup f' k).isSome

/-- Every binary of the package has a well-formed file name and a readable
source file. -/
def FilesPresent (f : List (String × Nat)) (pv : PackageVersion) : Prop :=
  ∀ bin ∈ pv.binaries,
    (fileName bin).isSome ∧ (alookup f (pathJoin pv.path bin)).isSome

/-- The source paths a package's binaries are copied from. -/
def srcPaths (pv : PackageVersion) : List String :=
  pv.binaries.map (fun bin => pathJoin pv.path bin)

/-- How many times a given source path was copied in a trace. -/
def countCopied (src : String) (evs : List Ev) : Nat :=
  (evs.filter (fun e =>
    match e with
    | Ev.copied s _ => decide (s = src)
    | _ => false)).length

/-! ### Basic lemmas about the map and string helpers -/

theorem alookup_aset_self {α : Type} (l : List (String × α)) (k : String) (v : α) :
    alookup (aset l k v) k = some v := by
  induction l with
  | nil => simp [aset, alookup]
  | cons e rest ih =>
    by_cases h : k = e.1
    · simp [aset, alookup, h]
    · simp [aset, alookup, h, ih]

theorem alookup_aset_ne {α : Type} (l : List (String × α)) (k k' : String) (v : α)
    (h : k ≠ k') : alookup (aset l k' v) k = alookup l k := by
  induction l with
  | nil => simp [aset, alookup, h]
  | cons e rest ih =>
    by_cases h' : k' = e.1
    · subst h'
      simp [aset, alookup, h]
    · by_cases h'' : k = e.1 <;> simp [aset, alookup, h', h'', ih]

theorem alookup_aset_isSome {α : Type} (l : List (String × α)) (k k' : String) (v : α)
    (h : (alookup l k).isSome) : (alookup (aset l k' v) k).isSome := by
  by_cases hk : k = k'
  · subst hk
    simp [alookup_aset_self]
  · rw [alookup_aset_ne l k k' v hk]
    exact h

theorem alookup_mem {α : Type} {l : List (String × α)} {k : String} {v : α}
    (h : alookup l k = some v) : (k, v) ∈ l := by
  induction l with
  | nil => simp [alookup] at h
  | cons e rest ih =>
    obtain ⟨ek, ev⟩ := e
    by_cases hk : k = ek
    · subst hk
      simp [alookup] at h
      subst h
      exact List.mem_cons_self _ _
    · simp [alookup, hk] at h
      exact List.mem_cons_of_mem _ (ih h)

theorem splitOnChar_of_not_mem {c : Char} {l : List Char} (h : c ∉ l) :
    splitOnChar c l = [l] := by
  induction l with
  | nil => simp [splitOnChar]
  | cons x xs ih =>
    have hx : ¬ x = c := fun he => h (by simp [he])
    have hxs : c ∈ xs → False := fun hm => h (List.mem_cons_of_mem _ hm)
    simp [splitOnChar, hx, ih hxs]

/-! ### C10: a package argument without `:` panics in `parse_pkg_arg` -/

/-- C10: for every command-line package argument containing no `:` separator,
`parse_pkg_arg` panics with an out-of-bounds index (`parts[1]`) instead of
returning a result, so the `/i` and `/u` entry points are not total over
arbitrary argument strings. -/
theorem parse_pkg_arg_not_total (arg : String) (h : ':' ∉ arg.data) :
    parse_pkg_arg arg = none := by
  simp [parse_pkg_arg, splitOnChar_of_not_mem h]

/-- Witness for C10 at the bare name `vim`. -/
theorem parse_pkg_arg_not_total_witness :
    ':' ∉ ("vim" : String).data ∧ parse_pkg_arg "vim" = none :=
  ⟨by decide, parse_pkg_arg_not_total "vim" (by decide)⟩

/-! ### C3: a corrupt state file is silently reset to empty, not a hard error -/

/-- C3 (code bug): `load_installed` returns the empty mapping when the
backing file is absent — as claimed — but when a file exists whose contents
do not parse, `unwrap_or_default` (main.rs:36) silently yields the empty
mapping as well, instead of the hard `StateCorrupt` error the claim states.
The non-`none` result is a normal return, not a panic or error. -/
theorem load_installed_corrupt_silent_reset :
    load_installed StateFile.absent = some []
      ∧ load_installed (StateFile.readable none) = some []
      ∧ ∀ d : InstalledDb, load_installed (StateFile.readable none) ≠ some (("x", ⟨"r", "1", []⟩) :: d) := by
  refine ⟨rfl, rfl, ?_⟩
  intro d h
  simp [load_installed] at h

/-! ### C7: a failed binary copy panics at the following `fs::read` -/

/-- C7 (code bug): for a package `a` with binaries `[x, y]` whose source
`p/x` is missing and with nothing at the destination `s/bins/x`, the copy of
`x` fails and is reported as `Simulated copy` — but the very next line
(main.rs:126) does `fs::read(&dest).unwrap()`, which panics, so the remaining
binary `y` is never processed and `a` is never recorded as installed,
contradicting the claim that a copy failure is non-fatal. -/
theorem copy_failure_panics :
    install_package ⟨[("a", [("1.0", ⟨"p", ["x", "y"], []⟩)])]⟩ "r" "s" "a" none ⟨[], [], []⟩
      = .panicked ⟨[], [], [Ev.simulatedCopy "p/x" "s/bins/x"]⟩ := by decide

/-! ### C2: missing package/version is reported, but does not abort the
top-level install -/

/-- C2 (counterexample): in a manifest where `a` depends on the absent
package `b`, installing `a` does *not* abort: the `PackageNotFound` condition
is only printed, the dependency loop returns normally, and `a` itself is then
installed and recorded — so the Installed-State Store is changed, refuting
the claim that the whole top-level `Install` aborts with the store left
unchanged. -/
theorem missing_dep_installs_parent_anyway :
    install_package ⟨[("a", [("1.0", ⟨"p", [], ["b"]⟩)])]⟩ "r" "s" "a" none ⟨[], [], []⟩
        = .ok [] ⟨[], [("a", ⟨"r", "1.0", []⟩)],
            [Ev.installingDep "b", Ev.packageNotFound "b" "r", Ev.installedOk "a"]⟩
      ∧ countKey [("a", (⟨"r", "1.0", []⟩ : InstalledPackage))] "a" = 1 := by
  exact ⟨by decide, by decide⟩

/-! ### The string order used for `keys().max()` -/

theorem charListLt_irrefl (l : List Char) : charListLt l l = false := by
  induction l with
  | nil => rfl
  | cons x xs ih => simp [charListLt, ih]

theorem charListLt_asymm : ∀ {a b : List Char}, charListLt a b = true → charListLt b a = false
  | [], [], h => by simp [charListLt] at h
  | [], _ :: _, _ => by simp [charListLt]
  | _ :: _, [], h => by simp [charListLt] at h
  | a :: as, b :: bs, h => by
    by_cases h1 : a.toNat < b.toNat
    · have h2 : ¬ b.toNat < a.toNat := by omega
      simp [charListLt, h1, h2]
    · by_cases h2 : b.toNat < a.toNat
      · simp [charListLt, h1, h2] at h
      · simp [charListLt, h1, h2] at h ⊢
        exact charListLt_asymm h

theorem charListLt_connected : ∀ {a c : List Char}, charListLt a c = true →
    ∀ b : List Char, charListLt a b = true ∨ charListLt b c = true
  | [], [], h, _ => by simp [charListLt] at h
  | _ :: _, [], h, _ => by simp [charListLt] at h
  | [], _ :: _, _, b => by
    match b with
    | [] => exact Or.inr (by simp [charListLt])
    | _ :: _ => exact Or.inl (by simp [charListLt])
  | a :: as, c :: cs, h, b => by
    match b with
    | [] => exact Or.inr (by simp [charListLt])
    | x :: xs =>
      rcases Nat.lt_trichotomy a.toNat x.toNat with hax | hax | hax
      · exact Or.inl (by simp [charListLt, hax])
      · rcases Nat.lt_trichotomy x.toNat c.toNat with hxc | hxc | hxc
        · exact Or.inr (by simp [charListLt, hxc])
        · have hac : ¬ a.toNat < c.toNat := by omega
          have hca : ¬ c.toNat < a.toNat := by omega
          simp [charListLt, hac, hca] at h
          rcases charListLt_connected h xs with h' | h'
          · exact Or.inl (by simp [charListLt, hax, Nat.lt_irrefl, h'])
          · exact Or.inr (by simp [charListLt, hxc, Nat.lt_irrefl, h'])
        · have hca : c.toNat < a.toNat := by omega
          simp [charListLt, Nat.lt_asymm hca, hca] at h
      · rcases Nat.lt_trichotomy x.toNat c.toNat with hxc | hxc | hxc
        · exact Or.inr (by simp [charListLt, hxc])
        · have hca : c.toNat < a.toNat := by omega
          simp [charListLt, Nat.lt_asymm hca, hca] at h
        · have hca : c.toNat < a.toNat := by omega
          simp [charListLt, Nat.lt_asymm hca, hca] at h

theorem strLt_irrefl (s : String) : strLt s s = false := charListLt_irrefl s.data

theorem strLt_asymm {a b : String} (h : strLt a b = true) : strLt b a = false :=
  charListLt_asymm h

theorem strLt_connected {a c : String} (h : strLt a c = true) (b : String) :
    strLt a b = true ∨ strLt b c = true :=
  charListLt_connected h b.data

/-- `maxKey` returns `none` only on the empty version map. -/
theorem maxKey_eq_none {versions : List (String × PackageVersion)}
    (h : maxKey versions = none) : versions = [] := by
  cases versions with
  | nil => rfl
  | cons e rest =>
    exfalso
    simp only [maxKey] at h
    cases hr : maxKey rest with
    | none => rw [hr] at h; simp at h
    | some m => rw [hr] at h; simp at h

/-- The key chosen by `maxKey` is present and no other key is greater. -/
theorem maxKey_spec :
    ∀ (versions : List (String × PackageVersion)) (m : String),
      maxKey versions = some m →
      m ∈ versions.map Prod.fst ∧ ∀ k ∈ versions.map Prod.fst, strLt m k = false := by
  intro versions
  induction versions with
  | nil => intro m h; simp [maxKey] at h
  | cons e rest ih =>
    intro m h
    simp only [maxKey] at h
    cases hr : maxKey rest with
    | none =>
      rw [hr] at h
      have hrest := maxKey_eq_none hr
      subst hrest
      simp at h
      subst h
      simp [strLt_irrefl]
    | some m' =>
      rw [hr] at h
      simp at h
      obtain ⟨hm', hbound⟩ := ih m' hr
      subst h
      unfold strMax
      by_cases hlt : strLt e.1 m' = true
      · simp only [hlt, if_true]
        refine ⟨by simp [hm'], ?_⟩
        intro k hk
        simp at hk
        rcases hk with hk | hk
        · subst hk; exact strLt_asymm hlt
        · exact hbound k (by simpa using hk)
      · simp only [hlt, if_false]
        refine ⟨by simp, ?_⟩
        intro k hk
        simp at hk
        rcases hk with hk | hk
        · subst hk; exact strLt_irrefl _
        · by_contra hcon
          simp at hcon
          rcases strLt_connected hcon m' with h' | h'
          · exact hlt h'
          · have := hbound k (by simpa using hk)
            rw [this] at h'
            exact Bool.noConfusion h'

/-! ### C5: version selection — requested version, else ordinal maximum -/

/-- C5: with no requested version the resolver selects the ordinally maximum
version key present in the manifest (the selected key is a key and no key is
strictly greater in the string order), and a package with empty dependency
and binary lists is then recorded under that version; with a requested
version it selects exactly that version. -/
theorem version_selection :
    (∀ (versions : List (String × PackageVersion)) (m : String),
        maxKey versions = some m →
        m ∈ versions.map Prod.fst ∧ ∀ k ∈ versions.map Prod.fst, strLt m k = false)
    ∧ (∀ (versions : List (String × PackageVersion)) (req : String),
        resolveVer (some req) versions = some req)
    ∧ (∀ (repo : Repo) (rn bs : String) (fuel : Nat) (pkg : String)
        (versions : List (String × PackageVersion)) (pv : PackageVersion)
        (ver : String) (req : Option String) (st : St),
        alookup repo.packages pkg = some versions →
        resolveVer req versions = some ver →
        alookup versions ver = some pv →
        pv.dependencies = [] → pv.binaries = [] →
        install_recursive repo rn bs (fuel + 1) pkg req [] st
          = .ok [] { st with
                     db := aset st.db pkg ⟨rn, ver, []⟩,
                     events := st.events ++ [Ev.installedOk pkg] }) := by
  refine ⟨maxKey_spec, fun versions req => rfl, ?_⟩
  intro repo rn bs fuel pkg versions pv ver req st h1 h2 h3 hd hb
  simp [install_recursive, h1, h2, h3, hd, hb, installDepsF, installBins]

/-- Witness for C5: versions `{"1.0", "2.0", "1.5"}` select `"2.0"`; a
requested `"1.5"` is selected exactly; the chosen version is recorded. -/
theorem version_selection_witness :
    (("2.0" : String) ∈ vlist5.map Prod.fst
        ∧ ∀ k ∈ vlist5.map Prod.fst, strLt "2.0" k = false)
    ∧ resolveVer (some "1.5") vlist5 = some "1.5"
    ∧ install_recursive ⟨[("v", vlist5)]⟩ "r" "s" (0 + 1) "v" none [] ⟨[], [], []⟩
        = .ok [] ⟨[], [("v", ⟨"r", "2.0", []⟩)], [Ev.installedOk "v"]⟩ :=
  ⟨version_selection.1 vlist5 "2.0" (by decide),
   version_selection.2.1 vlist5 "1.5",
   version_selection.2.2 ⟨[("v", vlist5)]⟩ "r" "s" 0 "v" vlist5 ⟨"p", [], []⟩ "2.0" none
     ⟨[], [], []⟩ (by decide) (by decide) (by decide) rfl rfl⟩

/-! ### C6: the already-installed check consults the store by name only -/

/-- C6: inside the dependency loop, a reference `name:depVersion` is skipped
(no recursion, no reinstall — only the `already installed` report is added)
as soon as *any* record for `name` is in the Installed-State Store, even when
the recorded version differs from the requested one; the installer function
`instF` is never invoked for it. -/
theorem dep_skip_by_name_only
    (instF : String → Option String → List String → St → Res)
    (dep name depVer : String) (rest visited : List String) (st : St)
    (rec : InstalledPackage)
    (hparse : parseDep dep = (name, some depVer))
    (hinst : alookup st.db name = some rec)
    (_hmismatch : rec.version ≠ depVer) :
    installDepsF instF (dep :: rest) visited st
      = installDepsF instF rest visited
          { st with events := st.events ++ [Ev.depAlreadyInstalled name] } := by
  simp [installDepsF, hparse, hinst]

/-- Witness for C6: `d` installed at version `1.0` while `d:2.0` is
requested; the dependency is skipped anyway. -/
theorem dep_skip_by_name_only_witness :
    installDepsF (install_recursive ⟨[]⟩ "r" "s" 0) ["d:2.0"] []
        ⟨[], [("d", ⟨"r", "1.0", []⟩)], []⟩
      = installDepsF (install_recursive ⟨[]⟩ "r" "s" 0) [] []
          ⟨[], [("d", ⟨"r", "1.0", []⟩)], [Ev.depAlreadyInstalled "d"]⟩ :=
  dep_skip_by_name_only (install_recursive ⟨[]⟩ "r" "s" 0) "d:2.0" "d" "2.0" [] []
    ⟨[], [("d", ⟨"r", "1.0", []⟩)], []⟩ ⟨"r", "1.0", []⟩ (by decide) (by decide) (by decide)

/-! ### C8: removal drops the record and attempts every binary deletion -/

theorem removeBins_db : ∀ (bins : List String) (st : St), (removeBins bins st).db = st.db := by
  intro bins
  induction bins with
  | nil => intro st; rfl
  | cons b rest ih => intro st; simp [removeBins, ih]

theorem removeBins_events : ∀ (bins : List String) (st : St),
    (removeBins bins st).events = st.events ++ bins.map Ev.removeAttempt := by
  intro bins
  induction bins with
  | nil => intro st; simp [removeBins]
  | cons b rest ih => intro st; simp [removeBins, ih]

theorem alookup_eq_none_of_not_mem {α : Type} {l : List (String × α)} {k : String}
    (h : k ∉ l.map Prod.fst) : alookup l k = none := by
  induction l with
  | nil => rfl
  | cons e rest ih =>
    have h1 : ¬ k = e.1 := fun he => h (by simp [he])
    have h2 : k ∉ rest.map Prod.fst := fun hm => h (by simp [hm])
    simp [alookup, h1, ih h2]

theorem alookup_aremove_self {α : Type} {l : List (String × α)} {k : String}
    (h : (l.map Prod.fst).Nodup) : alookup (aremove l k) k = none := by
  induction l with
  | nil => rfl
  | cons e rest ih =>
    simp at h
    by_cases hk : k = e.1
    · subst hk
      simp [aremove]
      exact alookup_eq_none_of_not_mem (by simpa using h.1)
    · simp [aremove, hk, alookup, ih h.2]

/-- C8: for an installed package, `remove_package` deletes the record (a
subsequent lookup by that name is empty) and attempts deletion of every
binary path in the record — the events are exactly one `removeAttempt` per
recorded binary followed by the `Removed` report.  Deletion failures cannot
abort the loop: nothing about the filesystem is assumed, so the conclusion
holds also when some recorded path is absent and its deletion fails. -/
theorem remove_clears_record_and_attempts_deletion (package : String) (st : St)
    (rec : InstalledPackage)
    (hnodup : (st.db.map Prod.fst).Nodup)
    (hrec : alookup st.db package = some rec) :
    alookup (remove_package package st).db package = none
      ∧ (remove_package package st).events
          = st.events ++ rec.binaries.map Ev.removeAttempt ++ [Ev.removedPkg package]
      ∧ ∀ bin ∈ rec.binaries, Ev.removeAttempt bin ∈ (remove_package package st).events := by
  have hdb : (remove_package package st).db = aremove st.db package := by
    simp [remove_package, hrec, removeBins_db]
  have hev : (remove_package package st).events
      = st.events ++ rec.binaries.map Ev.removeAttempt ++ [Ev.removedPkg package] := by
    simp [remove_package, hrec, removeBins_events]
  refine ⟨?_, hev, ?_⟩
  · rw [hdb]
    exact alookup_aremove_self hnodup
  · intro bin hbin
    rw [hev]
    exact List.mem_append_left _
      (List.mem_append_right _ (List.mem_map_of_mem _ hbin))

/-- Witness for C8: package `a` with binaries `[/x, /y]` where `/y` is not
even present on the filesystem (its deletion fails); the record is cleared
and both deletions are attempted. -/
theorem remove_clears_record_witness :
    alookup (remove_package "a" ⟨[("/x", 1)], [("a", ⟨"r", "1.0", ["/x", "/y"]⟩)], []⟩).db "a"
        = none
      ∧ (remove_package "a" ⟨[("/x", 1)], [("a", ⟨"r", "1.0", ["/x", "/y"]⟩)], []⟩).events
          = [] ++ ["/x", "/y"].map Ev.removeAttempt ++ [Ev.removedPkg "a"]
      ∧ ∀ bin ∈ ["/x", "/y"],
          Ev.removeAttempt bin
            ∈ (remove_package "a" ⟨[("/x", 1)], [("a", ⟨"r", "1.0", ["/x", "/y"]⟩)], []⟩).events :=
  remove_clears_record_and_attempts_deletion "a"
    ⟨[("/x", 1)], [("a", ⟨"r", "1.0", ["/x", "/y"]⟩)], []⟩ ⟨"r", "1.0", ["/x", "/y"]⟩
    (by decide) (by decide)

/-! ### C2 (amended): missing package/version is reported and skips only the
current node -/

/-- C2 as amended: an unknown package name or unknown version is reported
and aborts only the current node's install, leaving the state otherwise
unchanged — in particular a top-level request for an unknown package or
version installs nothing and leaves the Installed-State Store unchanged.
But the condition is not surfaced as a hard error of the enclosing
operation: a dependency on a missing package is merely reported, after which
the dependent package is still installed and recorded. -/
theorem missing_package_reported_not_fatal :
    (∀ (repo : Repo) (rn bs pkg : String) (ver : Option String) (st : St),
        alookup repo.packages pkg = none →
        install_package repo rn bs pkg ver st
          = .ok [] { st with events := st.events ++ [Ev.packageNotFound pkg rn] })
    ∧ (∀ (repo : Repo) (rn bs pkg : String)
        (versions : List (String × PackageVersion)) (ver : Option String)
        (v : String) (st : St),
        alookup repo.packages pkg = some versions →
        resolveVer ver versions = some v →
        alookup versions v = none →
        install_package repo rn bs pkg ver st
          = .ok [] { st with events := st.events ++ [Ev.versionNotFound v pkg] })
    ∧ (∀ (rn bs pkg v : String) (pv : PackageVersion) (m : String) (st : St),
        pv.dependencies = [m] → pv.binaries = [] →
        m ≠ pkg → ':' ∉ m.data →
        alookup st.db m = none →
        install_package ⟨[(pkg, [(v, pv)])]⟩ rn bs pkg (some v) st
          = .ok [] { st with
                     db := aset st.db pkg ⟨rn, v, []⟩,
                     events := st.events
                       ++ [Ev.installingDep m, Ev.packageNotFound m rn, Ev.installedOk pkg] }) := by
  refine ⟨?_, ?_, ?_⟩
  · intro repo rn bs pkg ver st h
    have hf : totalFuel repo = (allKeys repo.packages).length + 1 := rfl
    rw [install_package, hf]
    simp [install_recursive, h]
  · intro repo rn bs pkg versions ver v st h1 h2 h3
    have hf : totalFuel repo = (allKeys repo.packages).length + 1 := rfl
    rw [install_package, hf]
    simp [install_recursive, h1, h2, h3]
  · intro rn bs pkg v pv m st hdeps hbins hm hcolon hdb
    have hf : totalFuel ⟨[(pkg, [(v, pv)])]⟩ = 0 + 1 + 1 := by
      simp [totalFuel, allKeys, pkgKeys]
    rw [install_package, hf]
    simp [install_recursive, alookup, resolveVer, hdeps, hbins, installDepsF, parseDep,
      hcolon, hdb, hm, installBins]

/-- Witness for C2 (amended): `a` depends on the missing `b`; the install of
`a` reports `PackageNotFound` for `b` but still records `a`. -/
theorem missing_package_reported_not_fatal_witness :
    install_package ⟨[("a", [("1.0", ⟨"p", [], ["b"]⟩)])]⟩ "r" "s" "a" (some "1.0") ⟨[], [], []⟩
      = .ok [] ⟨[], [("a", ⟨"r", "1.0", []⟩)],
          [Ev.installingDep "b", Ev.packageNotFound "b" "r", Ev.installedOk "a"]⟩ :=
  missing_package_reported_not_fatal.2.2 "r" "s" "a" "1.0" ⟨"p", [], ["b"]⟩ "b" ⟨[], [], []⟩
    rfl rfl (by decide) (by decide) rfl

/-! ### C1: termination via the visited set, and the cycle report -/

theorem length_filter_le_of_imp {α : Type} (p q : α → Bool) (l : List α)
    (h : ∀ a, p a = true → q a = true) :
    (l.filter p).length ≤ (l.filter q).length := by
  induction l with
  | nil => exact Nat.le_refl _
  | cons x xs ih =>
    cases hp : p x with
    | true =>
      simp only [List.filter_cons, hp, h x hp, if_true, List.length_cons]
      omega
    | false =>
      cases hq : q x with
      | true =>
        simp [List.filter_cons, hp, hq]
        omega
      | false =>
        simpa [List.filter_cons, hp, hq] using ih

theorem length_filter_lt_of_witness {α : Type} (p q : α → Bool) (l : List α) (x : α)
    (hx : x ∈ l) (hpx : p x = false) (hqx : q x = true)
    (h : ∀ a, p a = true → q a = true) :
    (l.filter p).length < (l.filter q).length := by
  induction l with
  | nil => cases hx
  | cons y ys ih =>
    rcases List.mem_cons.mp hx with rfl | hmem
    · have hle := length_filter_le_of_imp p q ys h
      simp [List.filter_cons, hpx, hqx]
      omega
    · cases hpy : p y with
      | true =>
        have hlt := ih hmem
        simp [List.filter_cons, hpy, h y hpy]
        omega
      | false =>
        cases hqy : q y with
        | true =>
          have hlt := ih hmem
          simp [List.filter_cons, hpy, hqy]
          omega
        | false =>
          simpa [List.filter_cons, hpy, hqy] using ih hmem

theorem mem_pkgKeys {name v : String} {pv : PackageVersion}
    {versions : List (String × PackageVersion)} (h : (v, pv) ∈ versions) :
    (name ++ ":" ++ v) ∈ pkgKeys name versions := by
  induction versions with
  | nil => cases h
  | cons e rest ih =>
    obtain ⟨ev, epv⟩ := e
    rcases List.mem_cons.mp h with heq | hmem
    · injection heq with h1 h2
      subst h1
      exact List.mem_cons_self _ _
    · exact List.mem_cons_of_mem _ (ih hmem)

theorem mem_allKeys {p : String} {versions : List (String × PackageVersion)}
    {l : List (String × List (String × PackageVersion))}
    (hp : (p, versions) ∈ l) {v : String} {pv : PackageVersion}
    (hv : (v, pv) ∈ versions) : (p ++ ":" ++ v) ∈ allKeys l := by
  induction l with
  | nil => cases hp
  | cons e rest ih =>
    obtain ⟨en, evs⟩ := e
    rcases List.mem_cons.mp hp with heq | hmem
    · injection heq with h1 h2
      subst h1
      subst h2
      exact List.mem_append_left _ (mem_pkgKeys hv)
    · exact List.mem_append_right _ (ih hmem)

theorem keysLeft_cons_lt {repo : Repo} {key : String} {visited : List String}
    (hk : key ∈ allKeys repo.packages) (hnv : key ∉ visited) :
    keysLeft repo (key :: visited) < keysLeft repo visited := by
  refine length_filter_lt_of_witness _ _ _ key hk ?_ ?_ ?_
  · simp
  · simp [hnv]
  · intro a ha
    simp only [decide_eq_true_eq, List.mem_cons, not_or] at ha ⊢
    exact ha.2

theorem keysLeft_le (repo : Repo) (visited : List String) :
    keysLeft repo visited ≤ (allKeys repo.packages).length :=
  List.length_filter_le _ _

/-- Fuel-sufficiency: with more fuel than there are unvisited manifest keys,
`install_recursive` never exhausts its fuel, and whenever it returns
normally it restores the visited set it was given (the post-order release of
main.rs:141 balances the insertion of main.rs:86). -/
theorem install_recursive_fuel_spec (repo : Repo) (rn bs : String) :
    ∀ (fuel : Nat) (pkg : String) (ver : Option String) (visited : List String) (st : St),
      keysLeft repo visited < fuel →
      install_recursive repo rn bs fuel pkg ver visited st ≠ .outOfFuel
        ∧ ∀ v' st', install_recursive repo rn bs fuel pkg ver visited st = .ok v' st' →
            v' = visited := by
  intro fuel
  induction fuel with
  | zero =>
    intro pkg ver visited st h
    exact absurd h (Nat.not_lt_zero _)
  | succ fuel ih =>
    have hdeps : ∀ (deps : List String) (visited : List String) (st : St),
        keysLeft repo visited < fuel →
        installDepsF (install_recursive repo rn bs fuel) deps visited st ≠ .outOfFuel
          ∧ ∀ v' st',
              installDepsF (install_recursive repo rn bs fuel) deps visited st = .ok v' st' →
              v' = visited := by
      intro deps
      induction deps with
      | nil =>
        intro visited st h
        refine ⟨by simp [installDepsF], ?_⟩
        intro v' st' he
        simp [installDepsF] at he
        exact he.1.symm
      | cons dep rest ihd =>
        intro visited st h
        cases hdb : alookup st.db (parseDep dep).1 with
        | some r =>
          refine ⟨?_, ?_⟩
          · simpa [installDepsF, hdb] using (ihd visited _ h).1
          · intro v' st' he
            simp only [installDepsF, hdb] at he
            exact (ihd visited _ h).2 v' st' he
        | none =>
          cases hrec : install_recursive repo rn bs fuel (parseDep dep).1 (parseDep dep).2
              visited { st with events := st.events ++ [Ev.installingDep (parseDep dep).1] } with
          | outOfFuel => exact absurd hrec (ih _ _ _ _ h).1
          | panicked stp =>
            refine ⟨by simp [installDepsF, hdb, hrec], ?_⟩
            intro v' st' he
            simp [installDepsF, hdb, hrec] at he
          | ok v2 st2 =>
            have hv2 : v2 = visited := (ih _ _ _ _ h).2 v2 st2 hrec
            have hlt2 : keysLeft repo v2 < fuel := by rw [hv2]; exact h
            refine ⟨?_, ?_⟩
            · simpa [installDepsF, hdb, hrec] using (ihd v2 st2 hlt2).1
            · intro v' st' he
              simp only [installDepsF, hdb, hrec] at he
              exact ((ihd v2 st2 hlt2).2 v' st' he).trans hv2
    intro pkg ver visited st h
    cases h1 : alookup repo.packages pkg with
    | none =>
      refine ⟨by simp [install_recursive, h1], ?_⟩
      intro v' st' he
      simp [install_recursive, h1] at he
      exact he.1.symm
    | some versions =>
      cases h2 : resolveVer ver versions with
      | none =>
        refine ⟨by simp [install_recursive, h1, h2], ?_⟩
        intro v' st' he
        simp [install_recursive, h1, h2] at he
      | some v =>
        cases h3 : alookup versions v with
        | none =>
          refine ⟨by simp [install_recursive, h1, h2, h3], ?_⟩
          intro v' st' he
          simp [install_recursive, h1, h2, h3] at he
          exact he.1.symm
        | some pv =>
          by_cases h4 : (pkg ++ ":" ++ v) ∈ visited
          · refine ⟨by simp [install_recursive, h1, h2, h3, h4], ?_⟩
            intro v' st' he
            simp [install_recursive, h1, h2, h3, h4] at he
            exact he.1.symm
          · have hkmem : (pkg ++ ":" ++ v) ∈ allKeys repo.packages :=
              mem_allKeys (alookup_mem h1) (alookup_mem h3)
            have hlt : keysLeft repo ((pkg ++ ":" ++ v) :: visited) < fuel := by
              have hstep := keysLeft_cons_lt hkmem h4
              omega
            cases h5 : installDepsF (install_recursive repo rn bs fuel) pv.dependencies
                ((pkg ++ ":" ++ v) :: visited) st with
            | outOfFuel => exact absurd h5 (hdeps _ _ _ hlt).1
            | panicked stp =>
              refine ⟨by simp [install_recursive, h1, h2, h3, h4, h5], ?_⟩
              intro v' st' he
              simp [install_recursive, h1, h2, h3, h4, h5] at he
            | ok v2 st2 =>
              have hv2 : v2 = (pkg ++ ":" ++ v) :: visited := (hdeps _ _ _ hlt).2 v2 st2 h5
              subst hv2
              cases h6 : installBins bs pv.path pv.binaries [] st2 with
              | panicked st3 =>
                refine ⟨by simp [install_recursive, h1, h2, h3, h4, h5, h6], ?_⟩
                intro v' st' he
                simp [install_recursive, h1, h2, h3, h4, h5, h6] at he
              | ok bins st3 =>
                refine ⟨by simp [install_recursive, h1, h2, h3, h4, h5, h6], ?_⟩
                intro v' st' he
                simp [install_recursive, h1, h2, h3, h4, h5, h6] at he
                exact he.1.symm

/-- C1: for every manifest — in particular one containing a dependency cycle
of any length ≥ 1, including a self-dependency — the recursive install
terminates: run with the fuel `totalFuel repo` that models the call stack,
it never exhausts it, because the visited set makes the recursion well
founded.  And whenever the resolved `package:version` key is re-entered
while still in the visited set, the call reports exactly one cycle for that
key and returns with the state otherwise unchanged instead of recursing. -/
theorem install_terminates_and_reports_cycle :
    (∀ (repo : Repo) (rn bs pkg : String) (ver : Option String) (st : St),
        install_package repo rn bs pkg ver st ≠ .outOfFuel)
    ∧ (∀ (repo : Repo) (rn bs : String) (fuel : Nat) (pkg : String) (req : Option String)
        (visited : List String) (st : St) (versions : List (String × PackageVersion))
        (ver : String) (pv : PackageVersion),
        alookup repo.packages pkg = some versions →
        resolveVer req versions = some ver →
        alookup versions ver = some pv →
        (pkg ++ ":" ++ ver) ∈ visited →
        install_recursive repo rn bs (fuel + 1) pkg req visited st
          = .ok visited
              { st with events := st.events ++ [Ev.circularDep (pkg ++ ":" ++ ver)] }) := by
  constructor
  · intro repo rn bs pkg ver st
    have hb : keysLeft repo [] ≤ (allKeys repo.packages).length := keysLeft_le repo []
    have hlt : keysLeft repo [] < totalFuel repo := by
      simp only [totalFuel]
      omega
    exact (install_recursive_fuel_spec repo rn bs (totalFuel repo) pkg ver [] st hlt).1
  · intro repo rn bs fuel pkg req visited st versions ver pv h1 h2 h3 h4
    simp [install_recursive, h1, h2, h3, h4]

/-- Witness for C1 on the self-cycle manifest `a:1.0 → a`: the top-level
install does not exhaust its fuel, and re-entering `a:1.0` reports the
cycle. -/
theorem install_terminates_and_reports_cycle_witness :
    install_package ⟨[("a", [("1.0", ⟨"p", [], ["a"]⟩)])]⟩ "r" "s" "a" none ⟨[], [], []⟩
        ≠ .outOfFuel
      ∧ install_recursive ⟨[("a", [("1.0", ⟨"p", [], ["a"]⟩)])]⟩ "r" "s" (0 + 1) "a" none
          ["a:1.0"] ⟨[], [], []⟩
          = .ok ["a:1.0"] ⟨[], [], [Ev.circularDep ("a" ++ ":" ++ "1.0")]⟩ :=
  ⟨install_terminates_and_reports_cycle.1 ⟨[("a", [("1.0", ⟨"p", [], ["a"]⟩)])]⟩
      "r" "s" "a" none ⟨[], [], []⟩,
   install_terminates_and_reports_cycle.2 ⟨[("a", [("1.0", ⟨"p", [], ["a"]⟩)])]⟩
      "r" "s" 0 "a" none ["a:1.0"] ⟨[], [], []⟩ [("1.0", ⟨"p", [], ["a"]⟩)] "1.0"
      ⟨"p", [], ["a"]⟩ (by decide) (by decide) (by decide) (by decide)⟩

/-! ### C9: reinstalling overwrites the record instead of duplicating it -/

/-- The binary loop never touches the installed-state document. -/
theorem installBins_state_db (bs path : String) :
    ∀ (bins acc : List String) (st : St),
      ((installBins bs path bins acc st).state).db = st.db := by
  intro bins
  induction bins with
  | nil => intro acc st; rfl
  | cons bin rest ih =>
    intro acc st
    cases hf : fileName bin with
    | none => simp [installBins, hf, BinsRes.state]
    | some fname =>
      cases hsrc : alookup st.files (pathJoin path bin) with
      | some content =>
        simp only [installBins, hf, hsrc]
        cases hdest : alookup (aset st.files (pathJoin (pathJoin bs "bins") fname) content)
            (pathJoin (pathJoin bs "bins") fname) with
        | none => simp [BinsRes.state]
        | some c => simpa using ih _ _
      | none =>
        simp only [installBins, hf, hsrc]
        cases hdest : alookup st.files (pathJoin (pathJoin bs "bins") fname) with
        | none => simp [BinsRes.state]
        | some c => simpa using ih _ _

theorem installBins_ok_db {bs path : String} {bins acc : List String} {st : St}
    {bins' : List String} {st' : St}
    (h : installBins bs path bins acc st = .ok bins' st') : st'.db = st.db := by
  have := installBins_state_db bs path bins acc st
  rw [h] at this
  exact this

theorem installBins_panicked_db {bs path : String} {bins acc : List String} {st : St}
    {st' : St} (h : installBins bs path bins acc st = .panicked st') : st'.db = st.db := by
  have := installBins_state_db bs path bins acc st
  rw [h] at this
  exact this

theorem mem_aset_keys {α : Type} {l : List (String × α)} {k a : String} {v : α}
    (h : a ∈ (aset l k v).map Prod.fst) : a ∈ l.map Prod.fst ∨ a = k := by
  induction l with
  | nil =>
    simp [aset] at h
    exact Or.inr h
  | cons e rest ih =>
    by_cases hk : k = e.1
    · subst hk
      simp [aset] at h
      rcases h with h | h
      · exact Or.inr h
      · exact Or.inl (by simp [h])
    · simp only [aset, if_neg hk, List.map_cons, List.mem_cons] at h
      rcases h with h | h
      · exact Or.inl (by simp [h])
      · rcases ih h with h' | h'
        · exact Or.inl (List.mem_cons_of_mem _ h')
        · exact Or.inr h'

theorem aset_keys_nodup {α : Type} {l : List (String × α)} (k : String) (v : α)
    (h : (l.map Prod.fst).Nodup) : ((aset l k v).map Prod.fst).Nodup := by
  induction l with
  | nil => simp [aset]
  | cons e rest ih =>
    obtain ⟨ek, ev⟩ := e
    simp only [List.map_cons, List.nodup_cons] at h
    by_cases hk : k = ek
    · have ha : aset ((ek, ev) :: rest) k v = (k, v) :: rest := by simp [aset, hk]
      rw [ha]
      simp only [List.map_cons, List.nodup_cons]
      rw [hk]
      exact h
    · have ha : aset ((ek, ev) :: rest) k v = (ek, ev) :: aset rest k v := by
        simp [aset, hk]
      rw [ha]
      simp only [List.map_cons, List.nodup_cons]
      refine ⟨?_, ih h.2⟩
      intro hmem
      rcases mem_aset_keys hmem with h' | h'
      · exact h.1 h'
      · exact hk h'.symm

theorem installDepsF_nodup (instF : String → Option String → List String → St → Res)
    (hinst : ∀ (pkg : String) (ver : Option String) (visited : List String) (st : St),
      (st.db.map Prod.fst).Nodup → resDbKeysNodup (instF pkg ver visited st)) :
    ∀ (deps visited : List String) (st : St),
      (st.db.map Prod.fst).Nodup →
      resDbKeysNodup (installDepsF instF deps visited st) := by
  intro deps
  induction deps with
  | nil =>
    intro visited st h
    simpa [installDepsF, resDbKeysNodup] using h
  | cons dep rest ih =>
    intro visited st h
    cases hdb : alookup st.db (parseDep dep).1 with
    | some r =>
      have := ih visited { st with events := st.events ++ [Ev.depAlreadyInstalled (parseDep dep).1] } h
      simpa [installDepsF, hdb] using this
    | none =>
      cases hrec : instF (parseDep dep).1 (parseDep dep).2 visited
          { st with events := st.events ++ [Ev.installingDep (parseDep dep).1] } with
      | outOfFuel => simp [installDepsF, hdb, hrec, resDbKeysNodup]
      | panicked stp =>
        have := hinst (parseDep dep).1 (parseDep dep).2 visited
          { st with events := st.events ++ [Ev.installingDep (parseDep dep).1] } h
        rw [hrec] at this
        simpa [installDepsF, hdb, hrec, resDbKeysNodup] using this
      | ok v2 st2 =>
        have hst2 : (st2.db.map Prod.fst).Nodup := by
          have := hinst (parseDep dep).1 (parseDep dep).2 visited
            { st with events := st.events ++ [Ev.installingDep (parseDep dep).1] } h
          rw [hrec] at this
          exact this
        have := ih v2 st2 hst2
        simpa [installDepsF, hdb, hrec] using this

theorem install_recursive_nodup (repo : Repo) (rn bs : String) :
    ∀ (fuel : Nat) (pkg : String) (ver : Option String) (visited : List String) (st : St),
      (st.db.map Prod.fst).Nodup →
      resDbKeysNodup (install_recursive repo rn bs fuel pkg ver visited st) := by
  intro fuel
  induction fuel with
  | zero =>
    intro pkg ver visited st h
    simp [install_recursive, resDbKeysNodup]
  | succ fuel ih =>
    intro pkg ver visited st h
    cases h1 : alookup repo.packages pkg with
    | none => simpa [install_recursive, h1, resDbKeysNodup] using h
    | some versions =>
      cases h2 : resolveVer ver versions with
      | none => simpa [install_recursive, h1, h2, resDbKeysNodup] using h
      | some v =>
        cases h3 : alookup versions v with
        | none => simpa [install_recursive, h1, h2, h3, resDbKeysNodup] using h
        | some pv =>
          by_cases h4 : (pkg ++ ":" ++ v) ∈ visited
          · simpa [install_recursive, h1, h2, h3, h4, resDbKeysNodup] using h
          · cases h5 : installDepsF (install_recursive repo rn bs fuel) pv.dependencies
                ((pkg ++ ":" ++ v) :: visited) st with
            | outOfFuel => simp [install_recursive, h1, h2, h3, h4, h5, resDbKeysNodup]
            | panicked stp =>
              have := installDepsF_nodup _ ih pv.dependencies ((pkg ++ ":" ++ v) :: visited) st h
              rw [h5] at this
              simpa [install_recursive, h1, h2, h3, h4, h5, resDbKeysNodup] using this
            | ok v2 st2 =>
              have hst2 : (st2.db.map Prod.fst).Nodup := by
                have := installDepsF_nodup _ ih pv.dependencies ((pkg ++ ":" ++ v) :: visited) st h
                rw [h5] at this
                exact this
              cases h6 : installBins bs pv.path pv.binaries [] st2 with
              | panicked st3 =>
                have hdb3 : st3.db = st2.db := installBins_panicked_db h6
                simp only [install_recursive, h1, h2, h3, h4, h5, h6, if_neg h4]
                simpa [resDbKeysNodup, hdb3] using hst2
              | ok bins st3 =>
                have hdb3 : st3.db = st2.db := installBins_ok_db h6
                simp only [install_recursive, h1, h2, h3, h4, h5, h6, if_neg h4]
                simp only [resDbKeysNodup]
                exact aset_keys_nodup _ _ (by simpa [hdb3] using hst2)

/-- On a normal return with the package and version resolved and no cycle
hit, the final installed-state document is the mid-run document with the
freshly built record inserted for the package (main.rs:133-139). -/
theorem install_recursive_ok_shape {repo : Repo} {rn bs : String} {fuel : Nat}
    {pkg : String} {req : Option String} {visited : List String} {st : St}
    {versions : List (String × PackageVersion)} {ver : String} {pv : PackageVersion}
    (h1 : alookup repo.packages pkg = some versions)
    (h2 : resolveVer req versions = some ver)
    (h3 : alookup versions ver = some pv)
    (h4 : (pkg ++ ":" ++ ver) ∉ visited)
    {v' : List String} {st' : St}
    (hok : install_recursive repo rn bs (fuel + 1) pkg req visited st = .ok v' st') :
    ∃ (v2 : List String) (stDeps : St) (bins : List String),
      installDepsF (install_recursive repo rn bs fuel) pv.dependencies
          ((pkg ++ ":" ++ ver) :: visited) st = .ok v2 stDeps
        ∧ st'.db = aset stDeps.db pkg ⟨rn, ver, bins⟩ := by
  cases h5 : installDepsF (install_recursive repo rn bs fuel) pv.dependencies
      ((pkg ++ ":" ++ ver) :: visited) st with
  | outOfFuel => simp [install_recursive, h1, h2, h3, h4, h5] at hok
  | panicked stp => simp [install_recursive, h1, h2, h3, h4, h5] at hok
  | ok v2 stDeps =>
    cases h6 : installBins bs pv.path pv.binaries [] stDeps with
    | panicked st3 => simp [install_recursive, h1, h2, h3, h4, h5, h6] at hok
    | ok bins st3 =>
      refine ⟨v2, stDeps, bins, rfl, ?_⟩
      have hdb3 : st3.db = stDeps.db := installBins_ok_db h6
      simp [install_recursive, h1, h2, h3, h4, h5, h6] at hok
      rw [← hok.2]
      simp [hdb3]

theorem countKey_eq_zero_of_not_mem {α : Type} {l : List (String × α)} {k : String}
    (h : k ∉ l.map Prod.fst) : countKey l k = 0 := by
  induction l with
  | nil => rfl
  | cons e rest ih =>
    have h1 : ¬ e.1 = k := fun he => h (by simp [he])
    have h2 : k ∉ rest.map Prod.fst := fun hm => h (by simp [hm])
    have := ih h2
    simp [countKey, List.filter_cons, h1] at this ⊢
    exact this

theorem countKey_aset_nodup {α : Type} {l : List (String × α)} (k : String) (v : α)
    (h : (l.map Prod.fst).Nodup) : countKey (aset l k v) k = 1 := by
  induction l with
  | nil => simp [aset, countKey, List.filter_cons]
  | cons e rest ih =>
    obtain ⟨ek, ev⟩ := e
    simp only [List.map_cons, List.nodup_cons] at h
    by_cases hk : k = ek
    · have ha : aset ((ek, ev) :: rest) k v = (k, v) :: rest := by simp [aset, hk]
      rw [ha]
      have hz : countKey rest k = 0 := countKey_eq_zero_of_not_mem (by rw [hk]; exact h.1)
      simp [countKey, List.filter_cons] at hz ⊢
      exact hz
    · have ha : aset ((ek, ev) :: rest) k v = (ek, ev) :: aset rest k v := by
        simp [aset, hk]
      rw [ha]
      have hek : ¬ ek = k := fun he => hk he.symm
      have := ih h.2
      simp [countKey, List.filter_cons, hek] at this ⊢
      exact this

/-- C9: installing the same package twice in sequence leaves the
Installed-State Store with exactly one record for that package name — the
second install's `BTreeMap::insert` (main.rs:134) overwrites the first
record instead of duplicating it. -/
theorem reinstall_single_record (repo : Repo) (rn bs pkg : String) (req : Option String)
    (versions : List (String × PackageVersion)) (ver : String) (pv : PackageVersion)
    (st0 st1 st2 : St) (v1 v2 : List String)
    (hnodup : (st0.db.map Prod.fst).Nodup)
    (h1 : alookup repo.packages pkg = some versions)
    (h2 : resolveVer req versions = some ver)
    (h3 : alookup versions ver = some pv)
    (hrun1 : install_package repo rn bs pkg req st0 = .ok v1 st1)
    (hrun2 : install_package repo rn bs pkg req st1 = .ok v2 st2) :
    countKey st2.db pkg = 1 := by
  have hrun1' : install_recursive repo rn bs ((allKeys repo.packages).length + 1)
      pkg req [] st0 = .ok v1 st1 := hrun1
  have hrun2' : install_recursive repo rn bs ((allKeys repo.packages).length + 1)
      pkg req [] st1 = .ok v2 st2 := hrun2
  have hst1 : (st1.db.map Prod.fst).Nodup := by
    have := install_recursive_nodup repo rn bs ((allKeys repo.packages).length + 1)
      pkg req [] st0 hnodup
    rw [hrun1'] at this
    exact this
  obtain ⟨v2', stDeps, bins, hdeps, hshape⟩ :=
    install_recursive_ok_shape h1 h2 h3 (by simp) hrun2'
  have hstDeps : (stDeps.db.map Prod.fst).Nodup := by
    have := installDepsF_nodup
      (install_recursive repo rn bs ((allKeys repo.packages).length))
      (install_recursive_nodup repo rn bs ((allKeys repo.packages).length))
      pv.dependencies [pkg ++ ":" ++ ver] st1 hst1
    rw [hdeps] at this
    exact this
  rw [hshape]
  exact countKey_aset_nodup pkg _ hstDeps

/-- Witness for C9: installing `a` twice in a row from an empty store leaves
exactly one record for `a`. -/
theorem reinstall_single_record_witness :
    countKey [("a", (⟨"r", "1.0", []⟩ : InstalledPackage))] "a" = 1 :=
  reinstall_single_record ⟨[("a", [("1.0", ⟨"p", [], []⟩)])]⟩ "r" "s" "a" none
    [("1.0", ⟨"p", [], []⟩)] "1.0" ⟨"p", [], []⟩
    ⟨[], [], []⟩ ⟨[], [("a", ⟨"r", "1.0", []⟩)], [Ev.installedOk "a"]⟩
    ⟨[], [("a", ⟨"r", "1.0", []⟩)], [Ev.installedOk "a", Ev.installedOk "a"]⟩
    [] [] (by decide) (by decide) (by decide) (by decide) (by decide) (by decide)

/-! ### C4: a diamond dependency graph installs the shared node once -/

theorem FilesExtend.rfl {f : List (String × Nat)} : FilesExtend f f := fun _ h => h

theorem FilesExtend.trans {f g h : List (String × Nat)}
    (h1 : FilesExtend f g) (h2 : FilesExtend g h) : FilesExtend f h :=
  fun k hk => h2 k (h1 k hk)

theorem FilesExtend.aset {f : List (String × Nat)} (k : String) (v : Nat) :
    FilesExtend f (aset f k v) :=
  fun k' hk' => alookup_aset_isSome f k' k v hk'

theorem FilesPresent.mono {f f' : List (String × Nat)} {pv : PackageVersion}
    (hext : FilesExtend f f') (h : FilesPresent f pv) : FilesPresent f' pv :=
  fun bin hbin => ⟨(h bin hbin).1, hext _ (h bin hbin).2⟩

theorem parseDep_no_colon {s : String} (h : ':' ∉ s.data) : parseDep s = (s, none) := by
  simp [parseDep, h]

theorem installDepsF_nil (instF : String → Option String → List String → St → Res)
    (visited : List String) (st : St) :
    installDepsF instF [] visited st = .ok visited st := rfl

theorem installDepsF_cons_recurse_ok
    {instF : String → Option String → List String → St → Res}
    {dep n : String} {rest visited : List String} {st : St}
    {v' : List String} {st' : St}
    (hparse : parseDep dep = (n, none))
    (hdb : alookup st.db n = none)
    (hres : instF n none visited { st with events := st.events ++ [Ev.installingDep n] }
        = .ok v' st') :
    installDepsF instF (dep :: rest) visited st = installDepsF instF rest v' st' := by
  simp [installDepsF, hparse, hdb, hres]

theorem installDepsF_cons_skip
    {instF : String → Option String → List String → St → Res}
    {dep n : String} {dv : Option String} {rest visited : List String} {st : St}
    {r : InstalledPackage}
    (hparse : parseDep dep = (n, dv))
    (hdb : alookup st.db n = some r) :
    installDepsF instF (dep :: rest) visited st
      = installDepsF instF rest visited
          { st with events := st.events ++ [Ev.depAlreadyInstalled n] } := by
  simp [installDepsF, hparse, hdb]

/-- When every binary has a valid file name and a present source, the
binary loop succeeds, producing the accumulated destinations, exactly the
`binEvents` trace, an unchanged document, and a filesystem extension. -/
theorem installBins_ok (bs path : String) :
    ∀ (bins acc : List String) (st : St),
      (∀ bin ∈ bins, (fileName bin).isSome ∧ (alookup st.files (pathJoin path bin)).isSome) →
      ∃ files' : List (String × Nat),
        installBins bs path bins acc st
          = .ok (acc ++ bins.map (destOf bs))
              { files := files', db := st.db,
                events := st.events ++ binEvents bs path bins }
          ∧ FilesExtend st.files files' := by
  intro bins
  induction bins with
  | nil =>
    intro acc st h
    exact ⟨st.files, by simp [installBins, binEvents], FilesExtend.rfl⟩
  | cons bin rest ih =>
    intro acc st h
    obtain ⟨hfn, hsrc⟩ := h bin (List.mem_cons_self _ _)
    obtain ⟨fn, hfn'⟩ := Option.isSome_iff_exists.mp hfn
    obtain ⟨ct, hsrc'⟩ := Option.isSome_iff_exists.mp hsrc
    obtain ⟨files', heq, hext⟩ := ih (acc ++ [pathJoin (pathJoin bs "bins") fn])
      ⟨aset st.files (pathJoin (pathJoin bs "bins") fn) ct, st.db,
        st.events ++ [Ev.copied (pathJoin path bin) (pathJoin (pathJoin bs "bins") fn)]
          ++ [Ev.savedToDb fn]⟩
      (by
        intro bin' hbin'
        obtain ⟨h1, h2⟩ := h bin' (List.mem_cons_of_mem _ hbin')
        exact ⟨h1, alookup_aset_isSome _ _ _ _ h2⟩)
    have hstep : installBins bs path (bin :: rest) acc st
        = installBins bs path rest (acc ++ [pathJoin (pathJoin bs "bins") fn])
            ⟨aset st.files (pathJoin (pathJoin bs "bins") fn) ct, st.db,
              st.events ++ [Ev.copied (pathJoin path bin) (pathJoin (pathJoin bs "bins") fn)]
                ++ [Ev.savedToDb fn]⟩ := by
      simp [installBins, hfn', hsrc', alookup_aset_self]
    rw [hstep, heq]
    refine ⟨files', ?_, FilesExtend.trans (FilesExtend.aset _ _) hext⟩
    simp [binEvents, destOf, hfn']

/-- One fully successful node install (no cycle, dependencies already
processed, all binary sources present): the record is written under the
resolved version, the binaries are copied in order, and the visited key is
released. -/
theorem install_node_run {repo : Repo} {rn bs : String} {fuel : Nat}
    {pkg : String} {visited : List String} {st : St}
    {versions : List (String × PackageVersion)} {ver : String} {pv : PackageVersion}
    (h1 : alookup repo.packages pkg = some versions)
    (h2 : resolveVer none versions = some ver)
    (h3 : alookup versions ver = some pv)
    (h4 : (pkg ++ ":" ++ ver) ∉ visited)
    {stDeps : St}
    (hdeps : installDepsF (install_recursive repo rn bs fuel) pv.dependencies
        ((pkg ++ ":" ++ ver) :: visited) st = .ok ((pkg ++ ":" ++ ver) :: visited) stDeps)
    (hpres : FilesPresent stDeps.files pv) :
    ∃ files' : List (String × Nat),
      install_recursive repo rn bs (fuel + 1) pkg none visited st
        = .ok visited
            { files := files',
              db := aset stDeps.db pkg ⟨rn, ver, pv.binaries.map (destOf bs)⟩,
              events := stDeps.events ++ binEvents bs pv.path pv.binaries
                ++ [Ev.installedOk pkg] }
        ∧ FilesExtend stDeps.files files' := by
  obtain ⟨files', hbins, hext⟩ := installBins_ok bs pv.path pv.binaries [] stDeps hpres
  refine ⟨files', ?_, hext⟩
  simp [install_recursive, h1, h2, h3, h4, hdeps, hbins]

theorem countCopied_append (src : String) (l1 l2 : List Ev) :
    countCopied src (l1 ++ l2) = countCopied src l1 + countCopied src l2 := by
  simp [countCopied, List.filter_append]

theorem countCopied_binEvents (bs path : String) (bins : List String) (src : String) :
    countCopied src (binEvents bs path bins)
      = (bins.filter (fun bin => decide (pathJoin path bin = src))).length := by
  induction bins with
  | nil => rfl
  | cons bin rest ih =>
    simp only [binEvents, countCopied, List.filter_cons] at ih ⊢
    cases hd : decide (pathJoin path bin = src) <;> simp [hd, ih]

theorem filter_map_eq_zero {α : Type} (f : α → String) (l : List α) (s : String)
    (h : s ∉ l.map f) : (l.filter (fun y => decide (f y = s))).length = 0 := by
  induction l with
  | nil => rfl
  | cons x xs ih =>
    have h1 : ¬ f x = s := fun he => h (by simp [← he])
    have h2 : s ∉ xs.map f := fun hm => h (by simp [hm])
    simp [List.filter_cons, h1, ih h2]

theorem filter_map_eq_one {α : Type} (f : α → String) (l : List α) (x : α)
    (h : (l.map f).Nodup) (hx : x ∈ l) :
    (l.filter (fun y => decide (f y = f x))).length = 1 := by
  induction l with
  | nil => cases hx
  | cons y ys ih =>
    simp only [List.map_cons, List.nodup_cons] at h
    rcases List.mem_cons.mp hx with rfl | hmem
    · have hz : (ys.filter (fun z => decide (f z = f x))).length = 0 :=
        filter_map_eq_zero f ys (f x) h.1
      simp [List.filter_cons, hz]
    · have h1 : ¬ f y = f x := fun he => h.1 (he ▸ List.mem_map_of_mem f hmem)
      simp [List.filter_cons, h1, ih h.2 hmem]

theorem binEvents_mem {bs path : String} {bins : List String} {e : Ev}
    (h : e ∈ binEvents bs path bins) :
    (∃ bin ∈ bins, e = Ev.copied (pathJoin path bin) (destOf bs bin))
      ∨ ∃ bin ∈ bins, e = Ev.savedToDb ((fileName bin).getD "") := by
  induction bins with
  | nil => cases h
  | cons bin rest ih =>
    simp only [binEvents, List.mem_cons] at h
    rcases h with rfl | h
    · exact Or.inl ⟨bin, List.mem_cons_self _ _, rfl⟩
    rcases h with rfl | h
    · exact Or.inr ⟨bin, List.mem_cons_self _ _, rfl⟩
    rcases ih h with ⟨bin', hb, he⟩ | ⟨bin', hb, he⟩
    · exact Or.inl ⟨bin', List.mem_cons_of_mem _ hb, he⟩
    · exact Or.inr ⟨bin', List.mem_cons_of_mem _ hb, he⟩

theorem binEvents_no_cycle {bs path key : String} {bins : List String} :
    Ev.circularDep key ∉ binEvents bs path bins := by
  intro h
  rcases binEvents_mem h with ⟨bin, _, he⟩ | ⟨bin, _, he⟩ <;> cases he

/-- C4: for every diamond dependency graph — `a` depends on `{b, c}`, both
`b` and `c` depend on `d`, no cycle (pairwise distinct names and
`package:version` keys), each package at a single version, a fresh store and
all binary sources present — installing `a` produces exactly one
`InstalledPackage` record for `d`, copies each of `d`'s binaries exactly
once, and reports no cycle: `d` is released from the visited set when its
install completes and the already-installed check skips it when `c` is
processed. -/
theorem diamond_installs_once
    (a b c d va vb vc vd rn bs : String)
    (pa pb pc pd : PackageVersion) (st0 : St)
    (hpa : pa.dependencies = [b, c]) (hpb : pb.dependencies = [d])
    (hpc : pc.dependencies = [d]) (hpd : pd.dependencies = [])
    (h_ba : b ≠ a) (h_ca : c ≠ a) (h_da : d ≠ a)
    (h_cb : c ≠ b) (h_db2 : d ≠ b) (h_dc : d ≠ c)
    (hbcol : ':' ∉ b.data) (hccol : ':' ∉ c.data) (hdcol : ':' ∉ d.data)
    (hkba : b ++ ":" ++ vb ≠ a ++ ":" ++ va)
    (hkda : d ++ ":" ++ vd ≠ a ++ ":" ++ va)
    (hkdb : d ++ ":" ++ vd ≠ b ++ ":" ++ vb)
    (hkca : c ++ ":" ++ vc ≠ a ++ ":" ++ va)
    (hdb0 : st0.db = []) (hev0 : st0.events = [])
    (hfa : FilesPresent st0.files pa) (hfb : FilesPresent st0.files pb)
    (hfc : FilesPresent st0.files pc) (hfd : FilesPresent st0.files pd)
    (hndD : (srcPaths pd).Nodup)
    (hdisj : ∀ s ∈ srcPaths pd, s ∉ srcPaths pa ∧ s ∉ srcPaths pb ∧ s ∉ srcPaths pc) :
    ∃ st' : St,
      install_package ⟨[(a, [(va, pa)]), (b, [(vb, pb)]), (c, [(vc, pc)]), (d, [(vd, pd)])]⟩
          rn bs a none st0
        = .ok [] st'
      ∧ countKey st'.db d = 1
      ∧ (∀ bin ∈ pd.binaries, countCopied (pathJoin pd.path bin) st'.events = 1)
      ∧ ∀ key : String, Ev.circularDep key ∉ st'.events := by
  obtain ⟨f0, db0, ev0⟩ := st0
  obtain rfl : db0 = [] := hdb0
  obtain rfl : ev0 = [] := hev0
  set repo : Repo := ⟨[(a, [(va, pa)]), (b, [(vb, pb)]), (c, [(vc, pc)]), (d, [(vd, pd)])]⟩
    with hrepo
  -- manifest lookups
  have h1a : alookup repo.packages a = some [(va, pa)] := by simp [hrepo, alookup]
  have h1b : alookup repo.packages b = some [(vb, pb)] := by simp [hrepo, alookup, h_ba]
  have h1c : alookup repo.packages c = some [(vc, pc)] := by
    simp [hrepo, alookup, h_ca, h_cb]
  have h1d : alookup repo.packages d = some [(vd, pd)] := by
    simp [hrepo, alookup, h_da, h_db2, h_dc]
  have h2a : resolveVer none [(va, pa)] = some va := by simp [resolveVer, maxKey]
  have h2b : resolveVer none [(vb, pb)] = some vb := by simp [resolveVer, maxKey]
  have h2c : resolveVer none [(vc, pc)] = some vc := by simp [resolveVer, maxKey]
  have h2d : resolveVer none [(vd, pd)] = some vd := by simp [resolveVer, maxKey]
  have h3a : alookup [(va, pa)] va = some pa := by simp [alookup]
  have h3b : alookup [(vb, pb)] vb = some pb := by simp [alookup]
  have h3c : alookup [(vc, pc)] vc = some pc := by simp [alookup]
  have h3d : alookup [(vd, pd)] vd = some pd := by simp [alookup]
  have h4a : (a ++ ":" ++ va) ∉ ([] : List String) := by simp
  have h4b : (b ++ ":" ++ vb) ∉ [a ++ ":" ++ va] := by simp [hkba]
  have h4c : (c ++ ":" ++ vc) ∉ [a ++ ":" ++ va] := by simp [hkca]
  have h4d : (d ++ ":" ++ vd) ∉ [b ++ ":" ++ vb, a ++ ":" ++ va] := by simp [hkdb, hkda]
  -- the install of d (innermost), entered from b's dependency loop
  have hDdeps : installDepsF (install_recursive repo rn bs 2) pd.dependencies
      ((d ++ ":" ++ vd) :: [b ++ ":" ++ vb, a ++ ":" ++ va])
      ⟨f0, [], [Ev.installingDep b, Ev.installingDep d]⟩
      = .ok ((d ++ ":" ++ vd) :: [b ++ ":" ++ vb, a ++ ":" ++ va])
          ⟨f0, [], [Ev.installingDep b, Ev.installingDep d]⟩ := by
    rw [hpd]
    exact installDepsF_nil _ _ _
  obtain ⟨fD, hDrun, hextD⟩ := @install_node_run repo rn bs 2 d
    [b ++ ":" ++ vb, a ++ ":" ++ va] ⟨f0, [], [Ev.installingDep b, Ev.installingDep d]⟩
    [(vd, pd)] vd pd h1d h2d h3d h4d
    ⟨f0, [], [Ev.installingDep b, Ev.installingDep d]⟩ hDdeps hfd
  -- the install of b, entered from a's dependency loop
  have hBdeps : installDepsF (install_recursive repo rn bs (2 + 1)) pb.dependencies
      ((b ++ ":" ++ vb) :: [a ++ ":" ++ va]) ⟨f0, [], [Ev.installingDep b]⟩
      = .ok ((b ++ ":" ++ vb) :: [a ++ ":" ++ va])
          ⟨fD, [(d, ⟨rn, vd, pd.binaries.map (destOf bs)⟩)],
            [Ev.installingDep b, Ev.installingDep d]
              ++ binEvents bs pd.path pd.binaries ++ [Ev.installedOk d]⟩ := by
    rw [hpb]
    exact @installDepsF_cons_recurse_ok (install_recursive repo rn bs (2 + 1)) d d []
      [b ++ ":" ++ vb, a ++ ":" ++ va] ⟨f0, [], [Ev.installingDep b]⟩
      [b ++ ":" ++ vb, a ++ ":" ++ va]
      ⟨fD, [(d, ⟨rn, vd, pd.binaries.map (destOf bs)⟩)],
        [Ev.installingDep b, Ev.installingDep d]
          ++ binEvents bs pd.path pd.binaries ++ [Ev.installedOk d]⟩
      (parseDep_no_colon hdcol) rfl hDrun
  obtain ⟨fB, hBrun, hextB⟩ := @install_node_run repo rn bs (2 + 1) b
    [a ++ ":" ++ va] ⟨f0, [], [Ev.installingDep b]⟩ [(vb, pb)] vb pb
    h1b h2b h3b h4b
    ⟨fD, [(d, ⟨rn, vd, pd.binaries.map (destOf bs)⟩)],
      [Ev.installingDep b, Ev.installingDep d]
        ++ binEvents bs pd.path pd.binaries ++ [Ev.installedOk d]⟩
    hBdeps (FilesPresent.mono hextD hfb)
  -- normalize b's resulting document
  have hBrunN : install_recursive repo rn bs (2 + 1 + 1) b none [a ++ ":" ++ va]
      ⟨f0, [], [Ev.installingDep b]⟩
      = .ok [a ++ ":" ++ va]
          ⟨fB, [(d, ⟨rn, vd, pd.binaries.map (destOf bs)⟩),
                (b, ⟨rn, vb, pb.binaries.map (destOf bs)⟩)],
            [Ev.installingDep b, Ev.installingDep d]
              ++ binEvents bs pd.path pd.binaries ++ [Ev.installedOk d]
              ++ binEvents bs pb.path pb.binaries ++ [Ev.installedOk b]⟩ := by
    rw [hBrun]
    simp [aset, Ne.symm h_db2]
  -- the install of c, entered from a's dependency loop: d is skipped
  have hCskip : alookup
      ([(d, (⟨rn, vd, pd.binaries.map (destOf bs)⟩ : InstalledPackage)),
        (b, ⟨rn, vb, pb.binaries.map (destOf bs)⟩)] : InstalledDb) d
      = some ⟨rn, vd, pd.binaries.map (destOf bs)⟩ := by simp [alookup]
  have hCdeps : installDepsF (install_recursive repo rn bs (2 + 1)) pc.dependencies
      ((c ++ ":" ++ vc) :: [a ++ ":" ++ va])
      ⟨fB, [(d, ⟨rn, vd, pd.binaries.map (destOf bs)⟩),
            (b, ⟨rn, vb, pb.binaries.map (destOf bs)⟩)],
        [Ev.installingDep b, Ev.installingDep d]
          ++ binEvents bs pd.path pd.binaries ++ [Ev.installedOk d]
          ++ binEvents bs pb.path pb.binaries ++ [Ev.installedOk b]
          ++ [Ev.installingDep c]⟩
      = .ok ((c ++ ":" ++ vc) :: [a ++ ":" ++ va])
          ⟨fB, [(d, ⟨rn, vd, pd.binaries.map (destOf bs)⟩),
                (b, ⟨rn, vb, pb.binaries.map (destOf bs)⟩)],
            [Ev.installingDep b, Ev.installingDep d]
              ++ binEvents bs pd.path pd.binaries ++ [Ev.installedOk d]
              ++ binEvents bs pb.path pb.binaries ++ [Ev.installedOk b]
              ++ [Ev.installingDep c] ++ [Ev.depAlreadyInstalled d]⟩ := by
    rw [hpc]
    exact @installDepsF_cons_skip (install_recursive repo rn bs (2 + 1)) d d none []
      ((c ++ ":" ++ vc) :: [a ++ ":" ++ va])
      ⟨fB, [(d, ⟨rn, vd, pd.binaries.map (destOf bs)⟩),
            (b, ⟨rn, vb, pb.binaries.map (destOf bs)⟩)],
        [Ev.installingDep b, Ev.installingDep d]
          ++ binEvents bs pd.path pd.binaries ++ [Ev.installedOk d]
          ++ binEvents bs pb.path pb.binaries ++ [Ev.installedOk b]
          ++ [Ev.installingDep c]⟩
      ⟨rn, vd, pd.binaries.map (destOf bs)⟩
      (parseDep_no_colon hdcol) hCskip
  obtain ⟨fC, hCrun, hextC⟩ := @install_node_run repo rn bs (2 + 1) c
    [a ++ ":" ++ va]
    ⟨fB, [(d, ⟨rn, vd, pd.binaries.map (destOf bs)⟩),
          (b, ⟨rn, vb, pb.binaries.map (destOf bs)⟩)],
      [Ev.installingDep b, Ev.installingDep d]
        ++ binEvents bs pd.path pd.binaries ++ [Ev.installedOk d]
        ++ binEvents bs pb.path pb.binaries ++ [Ev.installedOk b]
        ++ [Ev.installingDep c]⟩
    [(vc, pc)] vc pc h1c h2c h3c h4c
    ⟨fB, [(d, ⟨rn, vd, pd.binaries.map (destOf bs)⟩),
          (b, ⟨rn, vb, pb.binaries.map (destOf bs)⟩)],
      [Ev.installingDep b, Ev.installingDep d]
        ++ binEvents bs pd.path pd.binaries ++ [Ev.installedOk d]
        ++ binEvents bs pb.path pb.binaries ++ [Ev.installedOk b]
        ++ [Ev.installingDep c] ++ [Ev.depAlreadyInstalled d]⟩
    hCdeps (FilesPresent.mono hextB (FilesPresent.mono hextD hfc))
  have hCrunN : install_recursive repo rn bs (2 + 1 + 1) c none [a ++ ":" ++ va]
      ⟨fB, [(d, ⟨rn, vd, pd.binaries.map (destOf bs)⟩),
            (b, ⟨rn, vb, pb.binaries.map (destOf bs)⟩)],
        [Ev.installingDep b, Ev.installingDep d]
          ++ binEvents bs pd.path pd.binaries ++ [Ev.installedOk d]
          ++ binEvents bs pb.path pb.binaries ++ [Ev.installedOk b]
          ++ [Ev.installingDep c]⟩
      = .ok [a ++ ":" ++ va]
          ⟨fC, [(d, ⟨rn, vd, pd.binaries.map (destOf bs)⟩),
                (b, ⟨rn, vb, pb.binaries.map (destOf bs)⟩),
                (c, ⟨rn, vc, pc.binaries.map (destOf bs)⟩)],
            [Ev.installingDep b, Ev.installingDep d]
              ++ binEvents bs pd.path pd.binaries ++ [Ev.installedOk d]
              ++ binEvents bs pb.path pb.binaries ++ [Ev.installedOk b]
              ++ [Ev.installingDep c] ++ [Ev.depAlreadyInstalled d]
              ++ binEvents bs pc.path pc.binaries ++ [Ev.installedOk c]⟩ := by
    rw [hCrun]
    simp [aset, Ne.symm h_dc, h_cb]
  -- a's dependency loop: install b, then install c
  have hAdeps : installDepsF (install_recursive repo rn bs (2 + 1 + 1)) pa.dependencies
      ((a ++ ":" ++ va) :: []) ⟨f0, [], []⟩
      = .ok ((a ++ ":" ++ va) :: [])
          ⟨fC, [(d, ⟨rn, vd, pd.binaries.map (destOf bs)⟩),
                (b, ⟨rn, vb, pb.binaries.map (destOf bs)⟩),
                (c, ⟨rn, vc, pc.binaries.map (destOf bs)⟩)],
            [Ev.installingDep b, Ev.installingDep d]
              ++ binEvents bs pd.path pd.binaries ++ [Ev.installedOk d]
              ++ binEvents bs pb.path pb.binaries ++ [Ev.installedOk b]
              ++ [Ev.installingDep c] ++ [Ev.depAlreadyInstalled d]
              ++ binEvents bs pc.path pc.binaries ++ [Ev.installedOk c]⟩ := by
    rw [hpa]
    have hstep1 := @installDepsF_cons_recurse_ok
      (install_recursive repo rn bs (2 + 1 + 1)) b b [c]
      [a ++ ":" ++ va] ⟨f0, [], []⟩ [a ++ ":" ++ va]
      ⟨fB, [(d, ⟨rn, vd, pd.binaries.map (destOf bs)⟩),
            (b, ⟨rn, vb, pb.binaries.map (destOf bs)⟩)],
        [Ev.installingDep b, Ev.installingDep d]
          ++ binEvents bs pd.path pd.binaries ++ [Ev.installedOk d]
          ++ binEvents bs pb.path pb.binaries ++ [Ev.installedOk b]⟩
      (parseDep_no_colon hbcol) rfl hBrunN
    have hlookc : alookup
        ([(d, (⟨rn, vd, pd.binaries.map (destOf bs)⟩ : InstalledPackage)),
          (b, ⟨rn, vb, pb.binaries.map (destOf bs)⟩)] : InstalledDb) c = none := by
      simp [alookup, Ne.symm h_dc, h_cb]
    have hstep2 := @installDepsF_cons_recurse_ok
      (install_recursive repo rn bs (2 + 1 + 1)) c c []
      [a ++ ":" ++ va]
      ⟨fB, [(d, ⟨rn, vd, pd.binaries.map (destOf bs)⟩),
            (b, ⟨rn, vb, pb.binaries.map (destOf bs)⟩)],
        [Ev.installingDep b, Ev.installingDep d]
          ++ binEvents bs pd.path pd.binaries ++ [Ev.installedOk d]
          ++ binEvents bs pb.path pb.binaries ++ [Ev.installedOk b]⟩
      [a ++ ":" ++ va]
      ⟨fC, [(d, ⟨rn, vd, pd.binaries.map (destOf bs)⟩),
            (b, ⟨rn, vb, pb.binaries.map (destOf bs)⟩),
            (c, ⟨rn, vc, pc.binaries.map (destOf bs)⟩)],
        [Ev.installingDep b, Ev.installingDep d]
          ++ binEvents bs pd.path pd.binaries ++ [Ev.installedOk d]
          ++ binEvents bs pb.path pb.binaries ++ [Ev.installedOk b]
          ++ [Ev.installingDep c] ++ [Ev.depAlreadyInstalled d]
          ++ binEvents bs pc.path pc.binaries ++ [Ev.installedOk c]⟩
      (parseDep_no_colon hccol) hlookc hCrunN
    exact hstep1.trans hstep2
  -- the top-level install of a
  obtain ⟨fA, hArun, hextA⟩ := @install_node_run repo rn bs (2 + 1 + 1) a [] ⟨f0, [], []⟩
    [(va, pa)] va pa h1a h2a h3a h4a
    ⟨fC, [(d, ⟨rn, vd, pd.binaries.map (destOf bs)⟩),
          (b, ⟨rn, vb, pb.binaries.map (destOf bs)⟩),
          (c, ⟨rn, vc, pc.binaries.map (destOf bs)⟩)],
      [Ev.installingDep b, Ev.installingDep d]
        ++ binEvents bs pd.path pd.binaries ++ [Ev.installedOk d]
        ++ binEvents bs pb.path pb.binaries ++ [Ev.installedOk b]
        ++ [Ev.installingDep c] ++ [Ev.depAlreadyInstalled d]
        ++ binEvents bs pc.path pc.binaries ++ [Ev.installedOk c]⟩
    hAdeps
    (FilesPresent.mono hextC (FilesPresent.mono hextB (FilesPresent.mono hextD hfa)))
  have hArunN : install_recursive repo rn bs (2 + 1 + 1 + 1) a none [] ⟨f0, [], []⟩
      = .ok []
          ⟨fA, [(d, ⟨rn, vd, pd.binaries.map (destOf bs)⟩),
                (b, ⟨rn, vb, pb.binaries.map (destOf bs)⟩),
                (c, ⟨rn, vc, pc.binaries.map (destOf bs)⟩),
                (a, ⟨rn, va, pa.binaries.map (destOf bs)⟩)],
            [Ev.installingDep b, Ev.installingDep d]
              ++ binEvents bs pd.path pd.binaries ++ [Ev.installedOk d]
              ++ binEvents bs pb.path pb.binaries ++ [Ev.installedOk b]
              ++ [Ev.installingDep c] ++ [Ev.depAlreadyInstalled d]
              ++ binEvents bs pc.path pc.binaries ++ [Ev.installedOk c]
              ++ binEvents bs pa.path pa.binaries ++ [Ev.installedOk a]⟩ := by
    rw [hArun]
    simp [aset, Ne.symm h_da, Ne.symm h_ba, Ne.symm h_ca]
  have hfuel : totalFuel repo = 2 + 1 + 1 + 1 := by
    simp [hrepo, totalFuel, allKeys, pkgKeys]
  refine ⟨⟨fA, [(d, ⟨rn, vd, pd.binaries.map (destOf bs)⟩),
              (b, ⟨rn, vb, pb.binaries.map (destOf bs)⟩),
              (c, ⟨rn, vc, pc.binaries.map (destOf bs)⟩),
              (a, ⟨rn, va, pa.binaries.map (destOf bs)⟩)],
          [Ev.installingDep b, Ev.installingDep d]
            ++ binEvents bs pd.path pd.binaries ++ [Ev.installedOk d]
            ++ binEvents bs pb.path pb.binaries ++ [Ev.installedOk b]
            ++ [Ev.installingDep c] ++ [Ev.depAlreadyInstalled d]
            ++ binEvents bs pc.path pc.binaries ++ [Ev.installedOk c]
            ++ binEvents bs pa.path pa.binaries ++ [Ev.installedOk a]⟩, ?_, ?_, ?_, ?_⟩
  · show install_recursive repo rn bs (totalFuel repo) a none [] ⟨f0, [], []⟩ = _
    rw [hfuel]
    exact hArunN
  · simp [countKey, List.filter_cons, Ne.symm h_db2, Ne.symm h_dc, Ne.symm h_da]
  · intro bin hbin
    have hmemsrc : pathJoin pd.path bin ∈ srcPaths pd :=
      List.mem_map_of_mem _ hbin
    obtain ⟨hnota, hnotb, hnotc⟩ := hdisj _ hmemsrc
    have e1 : countCopied (pathJoin pd.path bin) (binEvents bs pd.path pd.binaries) = 1 := by
      rw [countCopied_binEvents]
      exact filter_map_eq_one _ pd.binaries bin hndD hbin
    have e2 : countCopied (pathJoin pd.path bin) (binEvents bs pb.path pb.binaries) = 0 := by
      rw [countCopied_binEvents]
      exact filter_map_eq_zero _ pb.binaries _ hnotb
    have e3 : countCopied (pathJoin pd.path bin) (binEvents bs pc.path pc.binaries) = 0 := by
      rw [countCopied_binEvents]
      exact filter_map_eq_zero _ pc.binaries _ hnotc
    have e4 : countCopied (pathJoin pd.path bin) (binEvents bs pa.path pa.binaries) = 0 := by
      rw [countCopied_binEvents]
      exact filter_map_eq_zero _ pa.binaries _ hnota
    simp only [countCopied_append, e1, e2, e3, e4]
    simp [countCopied]
  · intro key
    simp [List.mem_append, binEvents_no_cycle]

/-- Witness for C4: the concrete diamond `a → {b, c}`, `b → d`, `c → d`
with one binary for `d` whose source is present. -/
theorem diamond_installs_once_witness :
    ∃ st' : St,
      install_package
          ⟨[("a", [("1.0", ⟨"pa", [], ["b", "c"]⟩)]),
            ("b", [("1.0", ⟨"pb", [], ["d"]⟩)]),
            ("c", [("1.0", ⟨"pc", [], ["d"]⟩)]),
            ("d", [("1.0", ⟨"pd", ["dx"], []⟩)])]⟩
          "r" "s" "a" none ⟨[("pd/dx", 7)], [], []⟩
        = .ok [] st'
      ∧ countKey st'.db "d" = 1
      ∧ (∀ bin ∈ (⟨"pd", ["dx"], []⟩ : PackageVersion).binaries,
          countCopied (pathJoin (⟨"pd", ["dx"], []⟩ : PackageVersion).path bin)
            st'.events = 1)
      ∧ ∀ key : String, Ev.circularDep key ∉ st'.events :=
  diamond_installs_once "a" "b" "c" "d" "1.0" "1.0" "1.0" "1.0" "r" "s"
    ⟨"pa", [], ["b", "c"]⟩ ⟨"pb", [], ["d"]⟩ ⟨"pc", [], ["d"]⟩ ⟨"pd", ["dx"], []⟩
    ⟨[("pd/dx", 7)], [], []⟩ rfl rfl rfl rfl
    (by decide) (by decide) (by decide) (by decide) (by decide) (by decide)
    (by decide) (by decide) (by decide)
    (by decide) (by decide) (by decide) (by decide)
    rfl rfl
    (by unfold FilesPresent; decide) (by unfold FilesPresent; decide)
    (by unfold FilesPresent; decide) (by unfold FilesPresent; decide)
    (by decide) (by decide)

end Bpm
